import Mathlib

/-!
Verification of the per-user sequential job processing subsystem of the
ai-personal-assistant repository (packages/ai-api).

The development shallowly embeds the Redis-backed job pipeline:

* queue/utils.py      -- chunk store and job metadata (save_job_chunk,
                         get_job_chunks, get_chunk_count, set_job_metadata,
                         get_job_metadata)
* streams/manager.py  -- per-user Redis stream operations
                         (add_message_to_stream, ensure_consumer_group,
                         read_stream_messages, acknowledge_message)
* streams/consumer.py -- discovery and the sequential per-user consumer loop
                         (discover_active_streams, process_user_stream,
                         process_single_message)
* streams/processor.py-- the job executor (process_chat_job_direct)
* main.py             -- status inference (get_stream_job_status)

Redis state is modelled explicitly: a stream is a list of entries with
monotonically assigned numeric ids plus optional consumer-group state
(last-delivered id and the pending-entry list); the per-job chunk store is a
list of raw serialized strings plus an optional parsed metadata record.
JSON serialization of chunks is abstracted by an encode/decode pair of
parameters; the async effects of the Python code become explicit state
passing, and exceptions become explicit result constructors.
-/

namespace AiApi

/-! ## Settings (config.py) -/

/-- Subset of config.Settings used by the queue code.  Both fields are
independently configurable environment settings. -/
structure Settings where
  arq_keep_result : Nat
  queue_chunk_ttl : Nat
  deriving Repr, DecidableEq

/-- Default values from config.py: arq_keep_result = 3600 and
queue_chunk_ttl = 3600. -/
def defaultSettings : Settings :=
  { arq_keep_result := 3600, queue_chunk_ttl := 3600 }

/-! ## Dictionaries

Python dicts with string keys are modelled as association lists; assignment
overwrites an existing key in place and appends a missing key at the end,
matching insertion-ordered Python dict semantics. -/

/-- Python dict assignment d[k] = v. -/
def dict_set (k v : String) : List (String × String) → List (String × String)
  | [] => [(k, v)]
  | (k1, v1) :: rest => if k1 = k then (k, v) :: rest else (k1, v1) :: dict_set k v rest

/-- Python dict lookup d.get(k). -/
def dict_get (k : String) : List (String × String) → Option String
  | [] => none
  | (k1, v1) :: rest => if k1 = k then some v1 else dict_get k rest

/-! ## Chunk store and job metadata (queue/utils.py) -/

/-- One streaming chunk record, the dict serialized by save_job_chunk:
index, content and timestamp fields. -/
structure ChunkRec where
  index : Nat
  content : String
  timestamp : String
  deriving Repr, DecidableEq

/-- Redis state for a single job id: the job:chunks list (raw serialized
strings in rpush order) with its TTL, and the job:meta value (parsed
metadata record) with its TTL. -/
structure JobStore where
  chunks : List String
  chunkTtl : Option Nat
  meta : Option (List (String × String))
  metaTtl : Option Nat
  deriving Repr, DecidableEq

/-- Job store with no keys set. -/
def emptyJobStore : JobStore :=
  { chunks := [], chunkTtl := none, meta := none, metaTtl := none }

/-- save_job_chunk: serialize the chunk dict, rpush it onto the job:chunks
list, and set the TTL of the list to settings.queue_chunk_ttl.  The JSON
serializer json.dumps is abstracted as the encode parameter; now stands for
datetime.utcnow().isoformat(). -/
def save_job_chunk (encode : ChunkRec → String) (settings : Settings) (now : String)
    (store : JobStore) (index : Nat) (content : String) : JobStore :=
  let chunk_data := encode { index := index, content := content, timestamp := now }
  { store with
    chunks := store.chunks ++ [chunk_data],
    chunkTtl := some settings.queue_chunk_ttl }

/-- get_job_chunks: lrange from start_index to the end, then parse each raw
entry, silently skipping entries whose parse fails (the except
json.JSONDecodeError branch, modelled by decode returning none). -/
def get_job_chunks (decode : String → Option ChunkRec) (store : JobStore)
    (start_index : Nat) : List ChunkRec :=
  let raw_chunks := store.chunks.drop start_index
  raw_chunks.foldl
    (fun chunks raw_chunk =>
      match decode raw_chunk with
      | some chunk => chunks ++ [chunk]
      | none => chunks)
    []

/-- get_chunk_count: llen of the job:chunks list. -/
def get_chunk_count (store : JobStore) : Nat :=
  store.chunks.length

/-- set_job_metadata: add a created_at timestamp to the metadata dict passed
by the caller (mutating it), then store the serialized dict under job:meta
with TTL settings.arq_keep_result.  The second component of the result is
the dict as the caller sees it after the call (Python mutates the argument
in place). -/
def set_job_metadata (settings : Settings) (now : String) (store : JobStore)
    (metadata : List (String × String)) : JobStore × List (String × String) :=
  let metadata := dict_set "created_at" now metadata
  ({ store with meta := some metadata, metaTtl := some settings.arq_keep_result },
   metadata)

/-- get_job_metadata: read and parse the job:meta value; none when the key
is absent (parse failure of a record not written by set_job_metadata is also
none and is outside this model). -/
def get_job_metadata (store : JobStore) : Option (List (String × String)) :=
  store.meta

/-! ## Status inference (main.py, get_stream_job_status) -/

/-- Python truthiness of the optional metadata dict: None and the empty
dict are falsy. -/
def truthyDict : Option (List (String × String)) → Bool
  | none => false
  | some m => !m.isEmpty

/-- get_stream_job_status: complete when metadata exists (truthy), else
in_progress when at least one chunk parses, else queued. -/
def get_stream_job_status (decode : String → Option ChunkRec) (store : JobStore) : String :=
  if truthyDict (get_job_metadata store) then "complete"
  else if !(get_job_chunks decode store 0).isEmpty then "in_progress"
  else "queued"

/-! ## Per-user streams (streams/manager.py) -/

/-- Fields of the job message added to the stream by /chat/enqueue and
decoded by process_single_message. -/
structure JobData where
  job_id : String
  user_id : String
  whatsapp_jid : String
  message : String
  conversation_type : String
  user_message_id : String
  whatsapp_message_id : Option String
  has_image : Bool
  image_mimetype : Option String
  has_document : Bool
  document_id : Option String
  document_path : Option String
  document_filename : Option String
  deriving Repr, DecidableEq

/-- One entry of a user stream: the Redis-assigned message id (modelled as a
Nat, strictly increasing within a stream) and the job data. -/
structure StreamEntry where
  id : Nat
  data : JobData
  deriving Repr, DecidableEq

/-- Consumer-group state of one stream: the last-delivered entry id and the
pending entry list (delivered but not yet acknowledged). -/
structure GroupState where
  last_delivered : Nat
  pending : List Nat
  deriving Repr, DecidableEq

/-- State of one stream:user:id key: its entries in id order, the next id
to assign, and the optional workers consumer group. -/
structure StreamState where
  entries : List StreamEntry
  next_id : Nat
  group : Option GroupState
  deriving Repr, DecidableEq

/-- Stream that does not exist yet. -/
def emptyStream : StreamState :=
  { entries := [], next_id := 1, group := none }

/-- XADD trimming with maxlen 1000: keep only the newest 1000 entries. -/
def xadd_trim (entries : List StreamEntry) : List StreamEntry :=
  if entries.length ≤ 1000 then entries else entries.drop (entries.length - 1000)

/-- add_message_to_stream: xadd the job data to the user stream with
maxlen 1000, returning the assigned message id. -/
def add_message_to_stream (s : StreamState) (job_data : JobData) : StreamState × Nat :=
  let e : StreamEntry := { id := s.next_id, data := job_data }
  ({ s with entries := xadd_trim (s.entries ++ [e]), next_id := s.next_id + 1 },
   s.next_id)

/-- ensure_consumer_group: xgroup_create with id 0 and mkstream; a BUSYGROUP
error (group already exists) is ignored. -/
def ensure_consumer_group (s : StreamState) : StreamState :=
  match s.group with
  | some _ => s
  | none => { s with group := some { last_delivered := 0, pending := [] } }

/-- read_stream_messages with count 1: ensure the group exists, then
xreadgroup on the stream with the special id (the greater-than form), which
delivers only entries newer than last_delivered, records the delivered entry
in the pending list and advances last_delivered.  Blocking is modelled by
returning the empty list when nothing is available. -/
def read_stream_messages (s : StreamState) : StreamState × List (Nat × JobData) :=
  let s := ensure_consumer_group s
  match s.group with
  | none => (s, [])
  | some g =>
    match s.entries.find? (fun e => decide (g.last_delivered < e.id)) with
    | none => (s, [])
    | some e =>
      ({ s with group := some { last_delivered := e.id, pending := g.pending ++ [e.id] } },
       [(e.id, e.data)])

/-- acknowledge_message: xack removes the message id from the pending
list. -/
def acknowledge_message (s : StreamState) (message_id : Nat) : StreamState :=
  match s.group with
  | none => s
  | some g => { s with group := some { g with pending := g.pending.erase message_id } }

/-! ## Discovery (streams/consumer.py, discover_active_streams) -/

/-- xpending on the workers group: the pending count, or none when the
group does not exist (the call raises and the except branch passes). -/
def xpending_count (s : StreamState) : Option Nat :=
  match s.group with
  | none => none
  | some g => some g.pending.length

/-- Decision made for one scanned stream key by discover_active_streams:
include the user when xpending reports a positive pending count, else when
xread from id 0-0 returns at least one message, which happens exactly when
the stream has at least one entry. -/
def stream_has_work (s : StreamState) : Bool :=
  (match xpending_count s with
   | some n => decide (0 < n)
   | none => false)
  || !s.entries.isEmpty

/-- discover_active_streams: scan all stream:user:* keys and collect the
user ids whose stream has pending or new messages. -/
def discover_active_streams (streams : List (String × StreamState)) : List String :=
  streams.foldl (fun acc us => if stream_has_work us.2 then acc ++ [us.1] else acc) []

/-! ## Job executor (streams/processor.py, process_chat_job_direct)

The executor is modelled via its externally visible Redis writes and its
outcome.  Collaborator calls (PostgreSQL history and saves, WhatsApp
reactions, embedding generation, image retrieval) either always succeed or
do not touch the chunk or metadata keys and are not part of the write
trace. -/

/-- Outcome of the agent streaming call get_ai_response: either the finite
list of streamed fragments, or an exception raised mid-stream after some
fragments. -/
inductive AgentRun where
  | ok (tokens : List String)
  | err (tokens : List String) (e : String)
  deriving Repr, DecidableEq

/-- One Redis write performed by the executor on the job keys: a chunk
append (save_job_chunk with index and content) or a metadata write
(set_job_metadata with the stored record). -/
inductive RWrite where
  | chunk (index : Nat) (content : String)
  | meta (record : List (String × String))
  deriving Repr, DecidableEq

/-- How process_chat_job_direct ends: normal success, normal return with
success False after a document-processing failure, or an exception
propagating out. -/
inductive ExecResult where
  | success (total_chunks : Nat)
  | docFailure (e : String)
  | raised (e : String)
  deriving Repr, DecidableEq

/-- Executor output: the ordered Redis writes on the job keys, whether the
agent was invoked, and the result. -/
structure ExecOutput where
  writes : List RWrite
  agent_invoked : Bool
  result : ExecResult
  deriving Repr, DecidableEq

/-- True exactly on the raised constructor. -/
def raisedB : ExecResult → Bool
  | ExecResult.raised _ => true
  | _ => false

/-- User-facing error text written when document processing fails (the
Python f-string renders a missing filename as None). -/
def doc_error_response (document_filename : Option String) : String :=
  "Sorry, I couldn\x27t process your document \x27" ++ document_filename.getD "None" ++
    "\x27. Please try uploading it again."

/-- Replacement message used after a successful document ingestion. -/
def uploaded_doc_message (document_filename : Option String) : String :=
  "I have uploaded a document called \x27" ++ document_filename.getD "None" ++
    "\x27. Please analyze it and let me know what it contains."

/-- Steps 3 to 7 of process_chat_job_direct: stream the agent response
accumulating every token into full_response, then save the complete
response as a single chunk at index 0, save the assistant message, and
write the job metadata with total_chunks = 1.  When the agent raises
mid-stream, the partial buffer is saved to the database only and the
exception propagates: no chunk and no metadata are written. -/
def run_agent_phase (now : String)
    (user_id whatsapp_jid message conversation_type user_message_id : String)
    (agent : AgentRun) (db_message_id : String) : ExecOutput :=
  match agent with
  | AgentRun.ok tokens =>
    let full_response := String.join tokens
    let metadata :=
      [("user_id", user_id), ("whatsapp_jid", whatsapp_jid), ("message", message),
       ("conversation_type", conversation_type), ("total_chunks", "1"),
       ("db_message_id", db_message_id), ("user_message_id", user_message_id)]
    { writes := [RWrite.chunk 0 full_response, RWrite.meta (dict_set "created_at" now metadata)],
      agent_invoked := true,
      result := ExecResult.success 1 }
  | AgentRun.err _tokens e =>
    { writes := [], agent_invoked := true, result := ExecResult.raised e }

/-- process_chat_job_direct: when the job carries a document (has_document
with a document_id and document_path), process the PDF first; on ingestion
failure short-circuit by writing a single user-facing error chunk at
index 0 and the job metadata including the error, returning success False
without invoking the agent.  Otherwise (or after successful ingestion, with
the message replaced) run the agent phase.  The doc_ingest and agent
arguments are the outcomes of the collaborator calls process_pdf_document
and get_ai_response; db_message_id is the id returned by save_message. -/
def process_chat_job_direct (now : String)
    (user_id whatsapp_jid message conversation_type user_message_id job_id : String)
    (has_document : Bool) (document_id document_path document_filename : Option String)
    (doc_ingest : Except String Unit) (agent : AgentRun) (db_message_id : String) :
    ExecOutput :=
  let _ := job_id
  if has_document && document_id.isSome && document_path.isSome then
    match doc_ingest with
    | Except.error e =>
      let full_response := doc_error_response document_filename
      let metadata :=
        [("user_id", user_id), ("whatsapp_jid", whatsapp_jid), ("message", message),
         ("conversation_type", conversation_type), ("total_chunks", "1"),
         ("user_message_id", user_message_id), ("error", e)]
      { writes := [RWrite.chunk 0 full_response,
                   RWrite.meta (dict_set "created_at" now metadata)],
        agent_invoked := false,
        result := ExecResult.docFailure e }
    | Except.ok _ =>
      run_agent_phase now user_id whatsapp_jid (uploaded_doc_message document_filename)
        conversation_type user_message_id agent db_message_id
  else
    run_agent_phase now user_id whatsapp_jid message conversation_type user_message_id
      agent db_message_id

/-- Chunk writes among a list of Redis writes, as (index, content) pairs. -/
def chunk_writes (ws : List RWrite) : List (Nat × String) :=
  ws.filterMap (fun w =>
    match w with
    | RWrite.chunk i c => some (i, c)
    | RWrite.meta _ => none)

/-! ## Sequential consumer (streams/consumer.py) -/

/-- Environment of collaborator outcomes, keyed by job id: the result of
process_pdf_document, the agent stream, and the database id assigned to the
saved assistant message. -/
structure JobEnv where
  doc_ingest : String → Except String Unit
  agent : String → AgentRun
  db_message_id : String → String

/-- process_single_message: decode the stream message fields and call
process_chat_job_direct on them with the collaborator outcomes for this
job id. -/
def process_single_message (env : JobEnv) (now : String) (data : JobData) : ExecOutput :=
  process_chat_job_direct now data.user_id data.whatsapp_jid data.message
    data.conversation_type data.user_message_id data.job_id
    data.has_document data.document_id data.document_path data.document_filename
    (env.doc_ingest data.job_id) (env.agent data.job_id) (env.db_message_id data.job_id)

/-- Observable events of one consumer run, in order: a claim (the xreadgroup
delivery), a Redis write performed by the executor for a job id, an xack,
or a caught executor exception (the except branch of process_user_stream,
which logs and continues without acknowledging). -/
inductive Event where
  | claim (message_id : Nat) (job_id : String)
  | write (job_id : String) (w : RWrite)
  | ack (message_id : Nat)
  | errorCaught (message_id : Nat)
  deriving Repr, DecidableEq

/-- Events for the executor writes of one job. -/
def write_events (job_id : String) (ws : List RWrite) : List Event :=
  ws.map (Event.write job_id)

/-- process_user_stream: repeatedly read one message from the user stream
(claiming it), run the executor on it, and acknowledge it; when the read
returns nothing the loop exits; when the executor raises, the exception is
caught, logged and the loop continues WITHOUT acknowledging the entry.  The
while loop is given explicit fuel; the result is the final stream state and
the ordered event trace. -/
def process_user_stream (env : JobEnv) (now : String) :
    Nat → StreamState → StreamState × List Event
  | 0, s => (s, [])
  | fuel + 1, s =>
    let r := read_stream_messages s
    match r.2 with
    | [] => (r.1, [])
    | (message_id, data) :: _ =>
      let out := process_single_message env now data
      let evs := Event.claim message_id data.job_id :: write_events data.job_id out.writes
      if raisedB out.result then
        let rest := process_user_stream env now fuel r.1
        (rest.1, evs ++ Event.errorCaught message_id :: rest.2)
      else
        let s2 := acknowledge_message r.1 message_id
        let rest := process_user_stream env now fuel s2
        (rest.1, evs ++ Event.ack message_id :: rest.2)

/-- Enqueue a list of jobs onto a fresh user stream via
add_message_to_stream, in order. -/
def enqueue_all (jobs : List JobData) : StreamState :=
  jobs.foldl (fun s j => (add_message_to_stream s j).1) emptyStream

/-- Sample job data used to instantiate theorems on concrete inputs. -/
def sampleJob (jid : String) : JobData :=
  { job_id := jid, user_id := "u", whatsapp_jid := "w", message := "hello",
    conversation_type := "private", user_message_id := "um",
    whatsapp_message_id := none, has_image := false, image_mimetype := none,
    has_document := false, document_id := none, document_path := none,
    document_filename := none }

/-- An entry of a stream that exists but has never been delivered to the
consumer group (a new, unclaimed entry). -/
def is_new_entry (s : StreamState) (e : StreamEntry) : Prop :=
  e ∈ s.entries ∧ ∀ g, s.group = some g → g.last_delivered < e.id

/-- Pending list of a stream, empty when the group does not exist. -/
def pending_of (s : StreamState) : List Nat :=
  match s.group with
  | none => []
  | some g => g.pending

/-- Recognizes the claim event of a given message id. -/
def is_claim_of (message_id : Nat) : Event → Bool
  | Event.claim m _ => m == message_id
  | _ => false

/-- Recognizes a metadata (Completion Record) write event for a job id. -/
def is_meta_write (job_id : String) : Event → Bool
  | Event.write j (RWrite.meta _) => j == job_id
  | _ => false

/-- Recognizes the acknowledge event of a given message id. -/
def is_ack_of (message_id : Nat) : Event → Bool
  | Event.ack m => m == message_id
  | _ => false

/-- Scanning the trace left to right: true when a p-event occurs strictly
before any q-event (vacuously true when no q-event occurs at all, false
when a q-event is reached before any p-event). -/
def precedes (p q : Event → Bool) : List Event → Bool
  | [] => true
  | e :: t => if q e then false else if p e then true else precedes p q t

/-- Events produced by one iteration of the consumer loop on entry e: the
claim, the executor writes, then the acknowledge (normal return) or the
caught-error marker (raised exception, no acknowledge). -/
def exec_block (env : JobEnv) (now : String) (e : StreamEntry) : List Event :=
  let out := process_single_message env now e.data
  Event.claim e.id e.data.job_id :: write_events e.data.job_id out.writes ++
    (if raisedB out.result then [Event.errorCaught e.id] else [Event.ack e.id])

/-- Concatenated iteration blocks of a list of entries. -/
def blocks_of (env : JobEnv) (now : String) : List StreamEntry → List Event
  | [] => []
  | e :: rest => exec_block env now e ++ blocks_of env now rest

/-- Ids of the entries whose execution raises, in order. -/
def raised_ids (env : JobEnv) (now : String) : List StreamEntry → List Nat
  | [] => []
  | e :: rest =>
    if raisedB (process_single_message env now e.data).result
    then e.id :: raised_ids env now rest
    else raised_ids env now rest

/-- Id of the last entry of the list, or the default when empty. -/
def last_id_from (d : Nat) : List StreamEntry → Nat
  | [] => d
  | e :: rest => last_id_from e.id rest

/-- Entry ids are strictly increasing along the list (always true of a
stream built by add_message_to_stream). -/
def ids_increasing : List StreamEntry → Bool
  | [] => true
  | [_] => true
  | a :: b :: t => decide (a.id < b.id) && ids_increasing (b :: t)

/-- Environment in which every collaborator call succeeds. -/
def envOk : JobEnv :=
  { doc_ingest := fun _ => Except.ok (),
    agent := fun _ => AgentRun.ok ["hi"],
    db_message_id := fun _ => "db1" }

/-- Environment in which the agent raises for job id A and succeeds for
every other job. -/
def envRaiseA : JobEnv :=
  { doc_ingest := fun _ => Except.ok (),
    agent := fun j => if j = "A" then AgentRun.err [] "boom" else AgentRun.ok ["hi"],
    db_message_id := fun _ => "db1" }

/-- Stream holding jobs A then B, enqueued in that order. -/
def twoJobStream : StreamState := enqueue_all [sampleJob "A", sampleJob "B"]

/-- Stream holding a single job A. -/
def oneJobStream : StreamState := enqueue_all [sampleJob "A"]

/-- Stream state after a consumer claimed entry 1 and crashed before
acknowledging, as seen by a restarted consumer: the entry is still in the
stream, the group has delivered it (last_delivered = 1) and it sits in the
pending list. -/
def pendingRestartStream : StreamState :=
  { entries := [{ id := 1, data := sampleJob "A" }], next_id := 2,
    group := some { last_delivered := 1, pending := [1] } }

/-! ## Dictionary lemmas -/

lemma dict_get_set_self (k v : String) (l : List (String × String)) :
    dict_get k (dict_set k v l) = some v := by
  induction l with
  | nil => simp [dict_set, dict_get]
  | cons p t ih =>
    by_cases h : p.1 = k <;> simp [dict_set, dict_get, h, ih]

lemma dict_get_set_ne (k v k2 : String) (h : k2 ≠ k) (l : List (String × String)) :
    dict_get k2 (dict_set k v l) = dict_get k2 l := by
  have hk : ¬(k = k2) := fun hh => h hh.symm
  induction l with
  | nil => simp [dict_set, dict_get, hk]
  | cons p t ih =>
    obtain ⟨k1, v1⟩ := p
    by_cases hp : k1 = k
    · subst hp
      simp [dict_set, dict_get, hk]
    · by_cases hp2 : k1 = k2 <;> simp [dict_set, dict_get, hp, hp2, ih, h]

lemma dict_set_ne_nil (k v : String) (l : List (String × String)) :
    dict_set k v l ≠ [] := by
  cases l with
  | nil => simp [dict_set]
  | cons p t =>
    by_cases h : p.1 = k <;> simp [dict_set, h]

/-! ## C10: set_job_metadata mutates the metadata dict passed by the caller -/

/-- C10: set_job_metadata inserts a created_at key into the dictionary the
caller passed (the caller observes the mutated dict after the call), every
other key keeps its value, the stored record is exactly the mutated dict,
and when the caller did not already have a created_at key the dict the
caller holds afterwards differs from the one passed in. -/
theorem c10_set_job_metadata_effects (settings : Settings) (now : String)
    (store : JobStore) (metadata : List (String × String)) :
    dict_get "created_at" (set_job_metadata settings now store metadata).2 = some now ∧
    (∀ k, k ≠ "created_at" →
      dict_get k (set_job_metadata settings now store metadata).2 = dict_get k metadata) ∧
    (set_job_metadata settings now store metadata).1.meta =
      some (set_job_metadata settings now store metadata).2 ∧
    (dict_get "created_at" metadata = none →
      (set_job_metadata settings now store metadata).2 ≠ metadata) := by
  refine ⟨dict_get_set_self _ _ _, fun k hk => dict_get_set_ne _ _ _ hk _, rfl, ?_⟩
  intro hnone heq
  have h1 := dict_get_set_self "created_at" now metadata
  rw [show dict_set "created_at" now metadata =
        (set_job_metadata settings now store metadata).2 from rfl, heq, hnone] at h1
  exact Option.noConfusion h1

/-- C10 witness: concrete instantiation with metadata holding one key. -/
theorem c10_witness :
    dict_get "created_at"
      (set_job_metadata defaultSettings "t0" emptyJobStore [("user_id", "u1")]).2 = some "t0" ∧
    dict_get "user_id"
      (set_job_metadata defaultSettings "t0" emptyJobStore [("user_id", "u1")]).2 = some "u1" ∧
    (set_job_metadata defaultSettings "t0" emptyJobStore [("user_id", "u1")]).1.meta =
      some (set_job_metadata defaultSettings "t0" emptyJobStore [("user_id", "u1")]).2 ∧
    (set_job_metadata defaultSettings "t0" emptyJobStore [("user_id", "u1")]).2 ≠
      [("user_id", "u1")] := by
  have h := c10_set_job_metadata_effects defaultSettings "t0" emptyJobStore [("user_id", "u1")]
  exact ⟨h.1, (h.2.1 "user_id" (by decide)).trans (by decide), h.2.2.1, h.2.2.2 (by decide)⟩

/-! ## C9: get_job_chunks returns exactly the parseable entries, in order -/

lemma get_job_chunks_foldl (decode : String → Option ChunkRec) (l : List String)
    (acc : List ChunkRec) :
    l.foldl
      (fun chunks raw_chunk =>
        match decode raw_chunk with
        | some chunk => chunks ++ [chunk]
        | none => chunks)
      acc = acc ++ l.filterMap decode := by
  induction l generalizing acc with
  | nil => simp
  | cons a t ih =>
    cases h : decode a <;> simp [h, ih, List.filterMap_cons]

lemma get_job_chunks_eq (decode : String → Option ChunkRec) (store : JobStore)
    (start_index : Nat) :
    get_job_chunks decode store start_index =
      (store.chunks.drop start_index).filterMap decode := by
  unfold get_job_chunks
  exact get_job_chunks_foldl decode _ []

/-- C9: get_job_chunks never fails: for every stored raw list it returns, in
storage order, exactly the entries that decode successfully, skipping any
entry whose parse fails (the caught json.JSONDecodeError branch). -/
theorem c9_get_job_chunks_skips_malformed (decode : String → Option ChunkRec)
    (store : JobStore) (start_index : Nat) :
    get_job_chunks decode store start_index =
      (store.chunks.drop start_index).filterMap decode := by
  unfold get_job_chunks
  exact get_job_chunks_foldl decode _ []

/-! ## C8: retention TTLs and stream trim bound -/

/-- C8 counterexample: with a configuration where queue_chunk_ttl = 3600 and
arq_keep_result = 7200, a chunk write sets TTL 3600 while a metadata write
sets TTL 7200, so the Completion Record does NOT get the same retention
window as the chunks. -/
theorem c8_counterexample :
    (save_job_chunk (fun c => c.content)
        { arq_keep_result := 7200, queue_chunk_ttl := 3600 } "t"
        emptyJobStore 0 "x").chunkTtl = some 3600 ∧
    ((set_job_metadata { arq_keep_result := 7200, queue_chunk_ttl := 3600 } "t"
        emptyJobStore []).1).metaTtl = some 7200 ∧
    (save_job_chunk (fun c => c.content)
        { arq_keep_result := 7200, queue_chunk_ttl := 3600 } "t"
        emptyJobStore 0 "x").chunkTtl ≠
      ((set_job_metadata { arq_keep_result := 7200, queue_chunk_ttl := 3600 } "t"
        emptyJobStore []).1).metaTtl := by
  exact ⟨rfl, rfl, by decide⟩

/-- C8 amended: every chunk write sets the TTL to the queue_chunk_ttl
setting (default 3600); every metadata write sets the TTL to the separate
arq_keep_result setting (also default 3600, so the windows agree under the
default configuration but are independently configurable); and every append
to a user stream trims it to at most 1000 entries. -/
lemma xadd_trim_length_le (l : List StreamEntry) : (xadd_trim l).length ≤ 1000 := by
  unfold xadd_trim
  by_cases h : l.length ≤ 1000
  · rw [if_pos h]
    exact h
  · rw [if_neg h, List.length_drop]
    omega

theorem c8_retention_amended (encode : ChunkRec → String) (settings : Settings)
    (now : String) (store : JobStore) (index : Nat) (content : String)
    (metadata : List (String × String)) (s : StreamState) (jdata : JobData) :
    (save_job_chunk encode settings now store index content).chunkTtl =
      some settings.queue_chunk_ttl ∧
    defaultSettings.queue_chunk_ttl = 3600 ∧
    ((set_job_metadata settings now store metadata).1).metaTtl =
      some settings.arq_keep_result ∧
    defaultSettings.arq_keep_result = 3600 ∧
    ((add_message_to_stream s jdata).1).entries.length ≤ 1000 := by
  exact ⟨rfl, rfl, rfl, rfl, xadd_trim_length_le _⟩

/-! ## C7: document ingestion failure short-circuits the executor -/

/-- C7: when the descriptor carries a document attachment (has_document set
and a document id and path present) and document ingestion fails, the
executor writes exactly one user-facing error chunk (index 0), writes the
job metadata including the error and a total_chunks of 1, and returns
failure without ever invoking the agent. -/
theorem c7_doc_failure_short_circuit (now user_id whatsapp_jid message conversation_type
    user_message_id job_id did dpath : String) (dfn : Option String) (e : String)
    (agent : AgentRun) (dbid : String) :
    chunk_writes (process_chat_job_direct now user_id whatsapp_jid message conversation_type
        user_message_id job_id true (some did) (some dpath) dfn
        (Except.error e) agent dbid).writes = [(0, doc_error_response dfn)] ∧
    (∃ record,
      (process_chat_job_direct now user_id whatsapp_jid message conversation_type
          user_message_id job_id true (some did) (some dpath) dfn
          (Except.error e) agent dbid).writes =
        [RWrite.chunk 0 (doc_error_response dfn), RWrite.meta record] ∧
      dict_get "error" record = some e ∧
      dict_get "total_chunks" record = some "1") ∧
    (process_chat_job_direct now user_id whatsapp_jid message conversation_type
        user_message_id job_id true (some did) (some dpath) dfn
        (Except.error e) agent dbid).agent_invoked = false ∧
    (process_chat_job_direct now user_id whatsapp_jid message conversation_type
        user_message_id job_id true (some did) (some dpath) dfn
        (Except.error e) agent dbid).result = ExecResult.docFailure e := by
  refine ⟨rfl, ⟨dict_set "created_at" now
      [("user_id", user_id), ("whatsapp_jid", whatsapp_jid), ("message", message),
       ("conversation_type", conversation_type), ("total_chunks", "1"),
       ("user_message_id", user_message_id), ("error", e)], rfl, ?_, ?_⟩, rfl, rfl⟩
  · simp [dict_set, dict_get]
  · simp [dict_set, dict_get]

/-! ## C2: chunk delivery is a single post-stream write, not incremental -/

/-- C2 counterexample: executing a job whose agent streams the two fragments
a and b produces exactly one chunk write, holding the concatenated response
ab, and NOT the two per-fragment chunk writes the claim requires (the code
accumulates all fragments and saves the complete response as a single chunk
at index 0 after the stream ends). -/
theorem c2_counterexample :
    chunk_writes (process_chat_job_direct "t" "u" "w" "m" "private" "um" "j"
        false none none none (Except.ok ()) (AgentRun.ok ["a", "b"]) "db").writes =
      [(0, "ab")] ∧
    chunk_writes (process_chat_job_direct "t" "u" "w" "m" "private" "um" "j"
        false none none none (Except.ok ()) (AgentRun.ok ["a", "b"]) "db").writes ≠
      [(0, "a"), (1, "b")] := by
  exact ⟨by decide, by decide⟩

/-- C2 amended: for every job without a document attachment whose agent
stream completes with a list of fragments, the executor accumulates the
fragments into a full-response buffer and performs exactly one chunk write,
at index 0, containing the concatenation of all fragments, followed by the
metadata write reporting total_chunks = 1; no chunk is stored before the
stream finishes, so pollers cannot observe per-fragment partial output. -/
theorem c2_single_chunk_after_stream (now user_id whatsapp_jid message conversation_type
    user_message_id job_id dbid : String) (tokens : List String) :
    chunk_writes (process_chat_job_direct now user_id whatsapp_jid message conversation_type
        user_message_id job_id false none none none (Except.ok ())
        (AgentRun.ok tokens) dbid).writes = [(0, String.join tokens)] ∧
    (∃ record,
      (process_chat_job_direct now user_id whatsapp_jid message conversation_type
          user_message_id job_id false none none none (Except.ok ())
          (AgentRun.ok tokens) dbid).writes =
        [RWrite.chunk 0 (String.join tokens), RWrite.meta record] ∧
      dict_get "total_chunks" record = some "1") ∧
    (process_chat_job_direct now user_id whatsapp_jid message conversation_type
        user_message_id job_id false none none none (Except.ok ())
        (AgentRun.ok tokens) dbid).result = ExecResult.success 1 := by
  refine ⟨rfl, ⟨_, rfl, ?_⟩, rfl⟩
  simp [dict_set, dict_get]

/-! ## C5: status inference -/

lemma filterMap_ne_nil_iff_of_isSome (decode : String → Option ChunkRec) (l : List String)
    (h : ∀ r ∈ l, (decode r).isSome) : l.filterMap decode = [] ↔ l = [] := by
  cases l with
  | nil => simp
  | cons a t =>
    have ha := h a (by simp)
    rcases hd : decode a with _ | c
    · rw [hd] at ha
      simp at ha
    · simp [List.filterMap_cons, hd]

/-- C5: for any job store whose records were produced by the write path
(every stored chunk parses, and a stored metadata record is never the empty
dict, which set_job_metadata guarantees by always adding created_at), the
inferred status is complete exactly when the Completion Record exists,
in_progress exactly when no record exists but at least one chunk does, and
queued otherwise; moreover the status stays complete after any further
chunk write, and becomes complete permanently once set_job_metadata runs. -/
theorem c5_status_inference (decode : String → Option ChunkRec) (store : JobStore)
    (hchunks : ∀ r ∈ store.chunks, (decode r).isSome)
    (hmeta : ∀ m, store.meta = some m → m ≠ []) :
    (get_stream_job_status decode store = "complete" ↔ store.meta.isSome) ∧
    (get_stream_job_status decode store = "in_progress" ↔
      store.meta = none ∧ store.chunks ≠ []) ∧
    (get_stream_job_status decode store = "queued" ↔
      store.meta = none ∧ store.chunks = []) ∧
    (∀ encode settings now index content, store.meta.isSome →
      get_stream_job_status decode (save_job_chunk encode settings now store index content) =
        "complete") ∧
    (∀ settings now metadata,
      get_stream_job_status decode ((set_job_metadata settings now store metadata).1) =
        "complete") := by
  have hchunkeq : get_job_chunks decode store 0 = store.chunks.filterMap decode := by
    rw [get_job_chunks_eq]
    simp
  rcases hm : store.meta with _ | m
  · have hstat : get_stream_job_status decode store =
        if store.chunks = [] then "queued" else "in_progress" := by
      unfold get_stream_job_status get_job_metadata
      rw [hm]
      by_cases hc : store.chunks = []
      · simp [truthyDict, hchunkeq, hc]
      · have : store.chunks.filterMap decode ≠ [] := by
          intro hnil
          exact hc ((filterMap_ne_nil_iff_of_isSome decode _ hchunks).mp hnil)
        simp [truthyDict, hchunkeq, hc, List.isEmpty_iff, this]
    refine ⟨?_, ?_, ?_, ?_, ?_⟩
    · rw [hstat]
      by_cases hc : store.chunks = [] <;> simp [hc, hm]
    · rw [hstat]
      by_cases hc : store.chunks = [] <;> simp [hc, hm]
    · rw [hstat]
      by_cases hc : store.chunks = [] <;> simp [hc, hm]
    · intro encode settings now index content hsome
      simp at hsome
    · intro settings now metadata
      unfold get_stream_job_status get_job_metadata set_job_metadata
      have hne := dict_set_ne_nil "created_at" now metadata
      simp [truthyDict, List.isEmpty_iff, hne]
  · have hne := hmeta m hm
    have hstat : get_stream_job_status decode store = "complete" := by
      unfold get_stream_job_status get_job_metadata
      rw [hm]
      simp [truthyDict, List.isEmpty_iff, hne]
    refine ⟨?_, ?_, ?_, ?_, ?_⟩
    · simp [hstat, hm]
    · simp [hstat, hm]
    · simp [hstat, hm]
    · intro encode settings now index content _
      have hmeta2 : (save_job_chunk encode settings now store index content).meta = some m := by
        simp [save_job_chunk, hm]
      unfold get_stream_job_status get_job_metadata
      rw [hmeta2]
      simp [truthyDict, List.isEmpty_iff, hne]
    · intro settings now metadata
      unfold get_stream_job_status get_job_metadata set_job_metadata
      have hne2 := dict_set_ne_nil "created_at" now metadata
      simp [truthyDict, List.isEmpty_iff, hne2]

/-- C5 witness: a store holding a Completion Record written by
set_job_metadata reads complete, and still reads complete after a further
metadata write. -/
theorem c5_witness :
    get_stream_job_status (fun _ => none)
      { chunks := [], chunkTtl := none, meta := some [("created_at", "t1")],
        metaTtl := none } = "complete" ∧
    get_stream_job_status (fun _ => none)
      ((set_job_metadata defaultSettings "t2"
        { chunks := [], chunkTtl := none, meta := some [("created_at", "t1")],
          metaTtl := none } []).1) = "complete" := by
  have h := c5_status_inference (fun _ => none)
    { chunks := [], chunkTtl := none, meta := some [("created_at", "t1")], metaTtl := none }
    (by intro r hr; cases hr)
    (by intro m hmm; cases hmm; decide)
  exact ⟨h.1.mpr (by decide), h.2.2.2.2 defaultSettings "t2" []⟩

/-! ## C6: discovery never omits a conversation with work -/

lemma mem_discover_aux (streams : List (String × StreamState)) (u : String)
    (acc : List String) :
    (u ∈ acc ∨ ∃ s, (u, s) ∈ streams ∧ stream_has_work s = true) →
    u ∈ streams.foldl
      (fun acc us => if stream_has_work us.2 then acc ++ [us.1] else acc) acc := by
  induction streams generalizing acc with
  | nil =>
    rintro (h | ⟨s, hs, _⟩)
    · exact h
    · cases hs
  | cons hd t ih =>
    intro h
    simp only [List.foldl_cons]
    apply ih
    rcases h with h | ⟨s, hs, hw⟩
    · left
      by_cases hw2 : stream_has_work hd.2 <;> simp [hw2, h]
    · rcases List.mem_cons.mp hs with heq | ht
      · left
        have h2 : hd.2 = s := by rw [← heq]
        have h1 : hd.1 = u := by rw [← heq]
        rw [if_pos (h2 ▸ hw), h1]
        simp
      · right
        exact ⟨s, ht, hw⟩

/-- C6: every scanned conversation whose stream currently has pending
(claimed but unacknowledged) entries or new (never delivered) entries is
included in the set returned by discover_active_streams; no such
conversation is omitted. -/
theorem c6_discovery_safety (streams : List (String × StreamState)) (u : String)
    (s : StreamState)
    (hmem : (u, s) ∈ streams)
    (hwork : (∃ g, s.group = some g ∧ g.pending ≠ []) ∨ ∃ e, is_new_entry s e) :
    u ∈ discover_active_streams streams := by
  apply mem_discover_aux
  right
  refine ⟨s, hmem, ?_⟩
  unfold stream_has_work xpending_count
  rcases hwork with ⟨g, hg, hne⟩ | ⟨e, he, _⟩
  · rw [hg]
    simp [List.length_pos, hne]
  · have hent : s.entries ≠ [] := by
      intro hnil
      rw [hnil] at he
      cases he
    cases s.group <;> simp [List.isEmpty_iff, hent]

/-- C6 witness: a stream with one never-delivered entry is discovered. -/
theorem c6_witness : "alice" ∈ discover_active_streams [("alice", oneJobStream)] := by
  apply c6_discovery_safety [("alice", oneJobStream)] "alice" oneJobStream (by simp)
  right
  refine ⟨{ id := 1, data := sampleJob "A" }, ?_, ?_⟩
  · decide
  · intro g hg
    cases hg

/-! ## Consumer loop: closed form of a full drain

The following lemmas characterize a run of process_user_stream on a stream
whose undelivered suffix is known: the run claims the undelivered entries in
order, one at a time, producing the concatenation of the per-entry iteration
blocks, acknowledging exactly the entries whose execution returns normally
and leaving the ids of raising entries in the pending list. -/

lemma find?_append_first_false (p : StreamEntry → Bool) (l1 l2 : List StreamEntry)
    (h : ∀ x ∈ l1, p x = false) : (l1 ++ l2).find? p = l2.find? p := by
  induction l1 with
  | nil => rfl
  | cons a t ih =>
    have ha := h a (by simp)
    rw [List.cons_append, List.find?_cons_of_neg _ (by simp [ha]), ih]
    intro x hx
    exact h x (by simp [hx])

lemma ids_increasing_tail (e : StreamEntry) (rest : List StreamEntry)
    (h : ids_increasing (e :: rest) = true) : ids_increasing rest = true := by
  cases rest with
  | nil => rfl
  | cons b t =>
    simp [ids_increasing] at h
    exact h.2

lemma ids_increasing_head (e : StreamEntry) (rest : List StreamEntry)
    (h : ids_increasing (e :: rest) = true) : ∀ x ∈ rest, e.id < x.id := by
  induction rest generalizing e with
  | nil =>
    intro x hx
    cases hx
  | cons b t ih =>
    simp [ids_increasing] at h
    intro x hx
    rcases List.mem_cons.mp hx with rfl | hxt
    · exact h.1
    · exact Nat.lt_trans h.1 (ih b h.2 x hxt)

lemma ids_increasing_append_right (l1 l2 : List StreamEntry)
    (h : ids_increasing (l1 ++ l2) = true) : ids_increasing l2 = true := by
  induction l1 with
  | nil => exact h
  | cons a t ih => exact ih (ids_increasing_tail _ _ h)

lemma ids_increasing_split (l1 l2 : List StreamEntry) (e : StreamEntry)
    (h : ids_increasing (l1 ++ e :: l2) = true) :
    (∀ x ∈ l1, x.id < e.id) ∧ (∀ x ∈ l2, e.id < x.id) := by
  constructor
  · induction l1 with
    | nil =>
      intro x hx
      cases hx
    | cons a t ih =>
      intro x hx
      rcases List.mem_cons.mp hx with rfl | hxt
      · exact ids_increasing_head x _ h e (by simp)
      · exact ih (ids_increasing_tail _ _ h) x hxt
  · exact ids_increasing_head e l2 (ids_increasing_append_right l1 (e :: l2) h)

lemma read_stream_messages_group_some (entries : List StreamEntry) (nid : Nat)
    (g : GroupState) :
    read_stream_messages { entries := entries, next_id := nid, group := some g } =
      match entries.find? (fun e => decide (g.last_delivered < e.id)) with
      | none => ({ entries := entries, next_id := nid, group := some g }, [])
      | some e =>
        ({ entries := entries, next_id := nid,
           group := some { last_delivered := e.id, pending := g.pending ++ [e.id] } },
         [(e.id, e.data)]) := rfl

lemma process_user_stream_succ (env : JobEnv) (now : String) (fuel : Nat)
    (s : StreamState) :
    process_user_stream env now (fuel + 1) s =
      (let r := read_stream_messages s
       match r.2 with
       | [] => (r.1, [])
       | (message_id, data) :: _ =>
         let out := process_single_message env now data
         let evs := Event.claim message_id data.job_id ::
           write_events data.job_id out.writes
         if raisedB out.result then
           let rest := process_user_stream env now fuel r.1
           (rest.1, evs ++ Event.errorCaught message_id :: rest.2)
         else
           let s2 := acknowledge_message r.1 message_id
           let rest := process_user_stream env now fuel s2
           (rest.1, evs ++ Event.ack message_id :: rest.2)) := rfl

lemma process_user_stream_run (env : JobEnv) (now : String) (todo : List StreamEntry) :
    ∀ (fuel : Nat) (done : List StreamEntry) (nid : Nat) (g : GroupState),
    (∀ x ∈ done, x.id ≤ g.last_delivered) →
    (∀ x ∈ todo, g.last_delivered < x.id) →
    ids_increasing todo = true →
    (∀ x ∈ todo, x.id ∉ g.pending) →
    todo.length < fuel →
    process_user_stream env now fuel
        { entries := done ++ todo, next_id := nid, group := some g } =
      ({ entries := done ++ todo, next_id := nid,
         group := some { last_delivered := last_id_from g.last_delivered todo,
                         pending := g.pending ++ raised_ids env now todo } },
       blocks_of env now todo) := by
  induction todo with
  | nil =>
    intro fuel done nid g hdone htodo hsorted hpend hfuel
    obtain ⟨f, rfl⟩ : ∃ f, fuel = f + 1 := ⟨fuel - 1, by omega⟩
    rw [process_user_stream_succ]
    have hfind : (done ++ ([] : List StreamEntry)).find?
        (fun e => decide (g.last_delivered < e.id)) = none := by
      rw [List.find?_eq_none]
      intro x hx
      simp only [List.append_nil] at hx
      simp [Nat.not_lt.mpr (hdone x hx)]
    rw [read_stream_messages_group_some, hfind]
    simp [last_id_from, raised_ids, blocks_of]
  | cons e rest ih =>
    intro fuel done nid g hdone htodo hsorted hpend hfuel
    obtain ⟨f, rfl⟩ : ∃ f, fuel = f + 1 := ⟨fuel - 1, by omega⟩
    rw [process_user_stream_succ]
    have hfind : (done ++ e :: rest).find?
        (fun e => decide (g.last_delivered < e.id)) = some e := by
      rw [find?_append_first_false _ done (e :: rest)
        (fun x hx => by simp [Nat.not_lt.mpr (hdone x hx)])]
      exact List.find?_cons_of_pos _ (by simp [htodo e (by simp)])
    rw [read_stream_messages_group_some, hfind]
    simp only []
    have hheadlt : ∀ x ∈ rest, e.id < x.id := ids_increasing_head e rest hsorted
    have hdone2 : ∀ x ∈ done ++ [e], x.id ≤ e.id := by
      intro x hx
      rcases List.mem_append.mp hx with hx1 | hx2
      · exact Nat.le_of_lt (Nat.lt_of_le_of_lt (hdone x hx1) (htodo e (by simp)))
      · simp at hx2
        subst hx2
        exact Nat.le_refl _
    have hentries : done ++ e :: rest = (done ++ [e]) ++ rest := by
      simp
    by_cases hr : raisedB (process_single_message env now e.data).result = true
    · rw [if_pos hr]
      have ihres := ih f (done ++ [e]) nid
        { last_delivered := e.id, pending := g.pending ++ [e.id] }
        hdone2 hheadlt (ids_increasing_tail _ _ hsorted)
        (by
          intro x hx
          simp only [List.mem_append, List.mem_singleton]
          push_neg
          exact ⟨hpend x (by simp [hx]), Nat.ne_of_gt (hheadlt x hx)⟩)
        (by simpa using Nat.lt_of_succ_lt_succ hfuel)
      have hst : (⟨done ++ e :: rest, nid, some ⟨e.id, g.pending ++ [e.id]⟩⟩ : StreamState) =
          ⟨(done ++ [e]) ++ rest, nid, some ⟨e.id, g.pending ++ [e.id]⟩⟩ := by
        rw [hentries]
      rw [hst, ihres]
      simp [blocks_of, exec_block, hr, raised_ids, last_id_from, List.append_assoc]
    · rw [if_neg hr]
      have hr2 : raisedB (process_single_message env now e.data).result = false := by
        revert hr
        cases raisedB (process_single_message env now e.data).result <;> simp
      have herase : (g.pending ++ [e.id]).erase e.id = g.pending := by
        rw [List.erase_append_right _ (hpend e (by simp)), List.erase_cons_head,
          List.append_nil]
      have hack : acknowledge_message
          (⟨done ++ e :: rest, nid, some ⟨e.id, g.pending ++ [e.id]⟩⟩ : StreamState) e.id =
          ⟨(done ++ [e]) ++ rest, nid, some ⟨e.id, g.pending⟩⟩ := by
        unfold acknowledge_message
        simp only []
        rw [herase, hentries]
      rw [hack]
      have ihres := ih f (done ++ [e]) nid
        { last_delivered := e.id, pending := g.pending }
        hdone2 hheadlt (ids_increasing_tail _ _ hsorted)
        (fun x hx => hpend x (by simp [hx]))
        (by simpa using Nat.lt_of_succ_lt_succ hfuel)
      rw [ihres]
      simp [blocks_of, exec_block, hr2, raised_ids, last_id_from, List.append_assoc]

lemma process_user_stream_fresh (env : JobEnv) (now : String) (fuel : Nat)
    (entries : List StreamEntry) (nid : Nat) (hfuel : 0 < fuel) :
    process_user_stream env now fuel
        { entries := entries, next_id := nid, group := none } =
      process_user_stream env now fuel
        { entries := entries, next_id := nid,
          group := some { last_delivered := 0, pending := [] } } := by
  cases fuel with
  | zero => omega
  | succ f => rfl

lemma process_user_stream_run0 (env : JobEnv) (now : String) (todo : List StreamEntry)
    (fuel nid : Nat)
    (hpos : ∀ x ∈ todo, 0 < x.id)
    (hsorted : ids_increasing todo = true)
    (hfuel : todo.length < fuel) :
    process_user_stream env now fuel
        { entries := todo, next_id := nid, group := none } =
      ({ entries := todo, next_id := nid,
         group := some { last_delivered := last_id_from 0 todo,
                         pending := raised_ids env now todo } },
       blocks_of env now todo) := by
  rw [process_user_stream_fresh env now fuel todo nid (by omega)]
  have h := process_user_stream_run env now todo fuel [] nid
    { last_delivered := 0, pending := [] }
    (by intro x hx; cases hx) hpos hsorted (by intro x hx; simp) hfuel
  simpa using h

/-! ## Event shape lemmas -/

lemma writes_shape_not_raised (env : JobEnv) (now : String) (d : JobData)
    (h : raisedB (process_single_message env now d).result = false) :
    ∃ c record, (process_single_message env now d).writes =
      [RWrite.chunk 0 c, RWrite.meta record] := by
  unfold process_single_message process_chat_job_direct run_agent_phase at h ⊢
  by_cases hd : (d.has_document && d.document_id.isSome && d.document_path.isSome) = true
  · rw [if_pos hd] at h ⊢
    rcases henv : env.doc_ingest d.job_id with e | u
    · exact ⟨_, _, rfl⟩
    · rcases hag : env.agent d.job_id with toks | ⟨toks2, e2⟩
      · exact ⟨_, _, rfl⟩
      · rw [henv, hag] at h
        simp [raisedB] at h
  · rw [if_neg hd] at h ⊢
    rcases hag : env.agent d.job_id with toks | ⟨toks2, e2⟩
    · exact ⟨_, _, rfl⟩
    · rw [hag] at h
      simp [raisedB] at h

lemma exec_block_mem (env : JobEnv) (now : String) (e : StreamEntry) (ev : Event)
    (hev : ev ∈ exec_block env now e) :
    ev = Event.claim e.id e.data.job_id ∨
    (∃ w, ev = Event.write e.data.job_id w) ∨
    ev = Event.ack e.id ∨ ev = Event.errorCaught e.id := by
  simp only [exec_block, write_events] at hev
  rcases List.mem_cons.mp hev with rfl | hev2
  · exact Or.inl rfl
  rcases List.mem_append.mp hev2 with hw | hif
  · rcases List.mem_map.mp hw with ⟨w, _, rfl⟩
    exact Or.inr (Or.inl ⟨w, rfl⟩)
  · by_cases hr : raisedB (process_single_message env now e.data).result = true
    · rw [if_pos hr] at hif
      simp at hif
      subst hif
      exact Or.inr (Or.inr (Or.inr rfl))
    · rw [if_neg hr] at hif
      simp at hif
      subst hif
      exact Or.inr (Or.inr (Or.inl rfl))

lemma blocks_of_append (env : JobEnv) (now : String) (l1 l2 : List StreamEntry) :
    blocks_of env now (l1 ++ l2) = blocks_of env now l1 ++ blocks_of env now l2 := by
  induction l1 with
  | nil => simp [blocks_of]
  | cons a t ih => simp [blocks_of, ih]

lemma blocks_of_mem (env : JobEnv) (now : String) (l : List StreamEntry) (ev : Event)
    (hev : ev ∈ blocks_of env now l) : ∃ e ∈ l, ev ∈ exec_block env now e := by
  induction l with
  | nil => simp [blocks_of] at hev
  | cons a t ih =>
    rcases List.mem_append.mp (by simpa [blocks_of] using hev) with h1 | h2
    · exact ⟨a, by simp, h1⟩
    · obtain ⟨e, he, hin⟩ := ih h2
      exact ⟨e, by simp [he], hin⟩

lemma mem_blocks_of_mem (env : JobEnv) (now : String) (e : StreamEntry)
    (l : List StreamEntry) (he : e ∈ l) (ev : Event) (hin : ev ∈ exec_block env now e) :
    ev ∈ blocks_of env now l := by
  induction l with
  | nil => cases he
  | cons a t ih =>
    rcases List.mem_cons.mp he with rfl | ht
    · simp only [blocks_of]
      exact List.mem_append.mpr (Or.inl hin)
    · simp only [blocks_of]
      exact List.mem_append.mpr (Or.inr (ih ht))

lemma claim_mem_block (env : JobEnv) (now : String) (e : StreamEntry) :
    Event.claim e.id e.data.job_id ∈ exec_block env now e := by
  simp [exec_block]

lemma ack_mem_block (env : JobEnv) (now : String) (e : StreamEntry)
    (hr : raisedB (process_single_message env now e.data).result = false) :
    Event.ack e.id ∈ exec_block env now e := by
  simp [exec_block, hr]

lemma is_ack_false_in_raised_block (env : JobEnv) (now : String) (e : StreamEntry)
    (m : Nat) (hr : raisedB (process_single_message env now e.data).result = true) :
    ∀ x ∈ exec_block env now e, is_ack_of m x = false := by
  intro x hx
  simp only [exec_block, write_events, hr, if_true] at hx
  rcases List.mem_cons.mp hx with rfl | hx2
  · rfl
  rcases List.mem_append.mp hx2 with hw | hcx
  · rcases List.mem_map.mp hw with ⟨w, _, rfl⟩
    rfl
  · simp at hcx
    subst hcx
    rfl

lemma is_ack_false_in_block_ne (env : JobEnv) (now : String) (e : StreamEntry)
    (m : Nat) (hne : e.id ≠ m) :
    ∀ x ∈ exec_block env now e, is_ack_of m x = false := by
  intro x hx
  rcases exec_block_mem env now e x hx with rfl | ⟨w, rfl⟩ | rfl | rfl
  · rfl
  · rfl
  · simp [is_ack_of, hne]
  · rfl

lemma mem_raised_ids (env : JobEnv) (now : String) (e : StreamEntry)
    (l : List StreamEntry) (he : e ∈ l)
    (hr : raisedB (process_single_message env now e.data).result = true) :
    e.id ∈ raised_ids env now l := by
  induction l with
  | nil => cases he
  | cons a t ih =>
    rcases List.mem_cons.mp he with rfl | ht
    · simp [raised_ids, hr]
    · by_cases hra : raisedB (process_single_message env now a.data).result = true
      · simp [raised_ids, hra]
        right
        exact ih ht
      · simp [raised_ids, hra]
        exact ih ht

/-! ## Trace-order lemmas -/

lemma precedes_cons_of_not (p q : Event → Bool) (a : Event) (t : List Event)
    (hqa : q a = false) (hpa : p a = false) (h : precedes p q t = true) :
    precedes p q (a :: t) = true := by
  simp [precedes, hqa, hpa, h]

lemma precedes_append_left (p q : Event → Bool) (l t : List Event)
    (hql : ∀ x ∈ l, q x = false) (h : precedes p q t = true) :
    precedes p q (l ++ t) = true := by
  induction l with
  | nil => exact h
  | cons a l2 ih =>
    have hqa := hql a (by simp)
    by_cases hpa : p a = true
    · simp [precedes, hqa, hpa]
    · have hpa2 : p a = false := by
        revert hpa
        cases p a <;> simp
      rw [List.cons_append]
      exact precedes_cons_of_not p q a (l2 ++ t) hqa hpa2
        (ih (fun x hx => hql x (by simp [hx])))

lemma any_false_of_all (p : Event → Bool) (l : List Event)
    (h : ∀ x ∈ l, p x = false) : l.any p = false := by
  induction l with
  | nil => rfl
  | cons a t ih =>
    simp [List.any_cons, h a (by simp), ih (fun x hx => h x (by simp [hx]))]

/-! ## C3: a claimed-but-unacknowledged entry is never re-claimed -/

/-- C3 evaluation at the failing input: after a consumer crash the entry is
still pending (claimed, unacknowledged), yet the restarted consumer reads
only new messages (the greater-than id form of xreadgroup), so
read_stream_messages returns nothing, a whole consumer run produces no
events at all, and the entry stays in the pending list forever while
discovery keeps reporting the stream as active. -/
theorem c3_pending_entry_never_reclaimed :
    (read_stream_messages pendingRestartStream).2 = [] ∧
    pending_of (read_stream_messages pendingRestartStream).1 = [1] ∧
    (process_user_stream envOk "t" 5 pendingRestartStream).2 = [] ∧
    pending_of (process_user_stream envOk "t" 5 pendingRestartStream).1 = [1] ∧
    discover_active_streams [("alice", pendingRestartStream)] = ["alice"] := by
  exact ⟨rfl, rfl, rfl, rfl, rfl⟩

/-! ## C1: per-conversation FIFO ordering -/

/-- C1 counterexample: with job A enqueued before job B on the same
conversation and the Job Executor raising on A, B is still claimed (the
runner moves on) although no Completion Record for A is ever written, so
the claimed property that the record write for A precedes the claim of B
fails on this trace. -/
theorem c1_counterexample :
    (process_user_stream envRaiseA "t" 3 twoJobStream).2.any (is_claim_of 2) = true ∧
    precedes (is_meta_write "A") (is_claim_of 2)
      (process_user_stream envRaiseA "t" 3 twoJobStream).2 = false := by
  exact ⟨rfl, rfl⟩

/-- C1 amended: on a fresh conversation stream the runner claims entries
strictly in enqueue order, and whenever the Job Executor call for the
earlier job A returns normally (success, or handled document failure), the
Completion Record write for A appears in the trace strictly before the
claim of any later job B, which is itself claimed; when the call for A
raises, B is still claimed afterwards but without a Completion Record for A
(see the counterexample). -/
theorem c1_fifo_completion_before_next_claim (env : JobEnv) (now : String)
    (s : StreamState) (l1 l2 l3 : List StreamEntry) (eA eB : StreamEntry) (fuel : Nat)
    (hfresh : s.group = none)
    (hsplit : s.entries = l1 ++ eA :: (l2 ++ eB :: l3))
    (hsorted : ids_increasing s.entries = true)
    (hpos : ∀ e ∈ s.entries, 0 < e.id)
    (hA : raisedB (process_single_message env now eA.data).result = false)
    (hfuel : s.entries.length < fuel) :
    (process_user_stream env now fuel s).2.any (is_claim_of eB.id) = true ∧
    precedes (is_claim_of eA.id) (is_claim_of eB.id)
      (process_user_stream env now fuel s).2 = true ∧
    precedes (is_meta_write eA.data.job_id) (is_claim_of eB.id)
      (process_user_stream env now fuel s).2 = true := by
  obtain ⟨entries, nid, gr⟩ := s
  rcases gr with _ | g
  · simp only [] at hsplit hsorted hpos hfuel
    subst hsplit
    have hrun := process_user_stream_run0 env now (l1 ++ eA :: (l2 ++ eB :: l3))
      fuel nid hpos hsorted hfuel
    have ht : (process_user_stream env now fuel
        ⟨l1 ++ eA :: (l2 ++ eB :: l3), nid, none⟩).2 =
        blocks_of env now (l1 ++ eA :: (l2 ++ eB :: l3)) := by
      rw [hrun]
    have hsp := ids_increasing_split l1 (l2 ++ eB :: l3) eA hsorted
    have hAB : eA.id < eB.id := hsp.2 eB (by simp)
    have hb : blocks_of env now (l1 ++ eA :: (l2 ++ eB :: l3)) =
        blocks_of env now l1 ++
          (exec_block env now eA ++ blocks_of env now (l2 ++ eB :: l3)) := by
      rw [blocks_of_append]
      simp [blocks_of]
    have hq1 : ∀ x ∈ blocks_of env now l1, is_claim_of eB.id x = false := by
      intro x hx
      obtain ⟨e1, he1, hin⟩ := blocks_of_mem env now l1 x hx
      have hne : e1.id ≠ eB.id := Nat.ne_of_lt (Nat.lt_trans (hsp.1 e1 he1) hAB)
      rcases exec_block_mem env now e1 x hin with rfl | ⟨w, rfl⟩ | rfl | rfl
      · simp [is_claim_of, hne]
      · rfl
      · rfl
      · rfl
    obtain ⟨c, record, hw⟩ := writes_shape_not_raised env now eA.data hA
    have hblockA : exec_block env now eA =
        Event.claim eA.id eA.data.job_id ::
          Event.write eA.data.job_id (RWrite.chunk 0 c) ::
          Event.write eA.data.job_id (RWrite.meta record) :: [Event.ack eA.id] := by
      simp [exec_block, write_events, hw, hA]
    have hqA : is_claim_of eB.id (Event.claim eA.id eA.data.job_id) = false := by
      simp [is_claim_of, Nat.ne_of_lt hAB]
    refine ⟨?_, ?_, ?_⟩
    · rw [ht]
      apply List.any_eq_true.mpr
      refine ⟨Event.claim eB.id eB.data.job_id, ?_, by simp [is_claim_of]⟩
      rw [hb]
      refine List.mem_append.mpr (Or.inr (List.mem_append.mpr (Or.inr ?_)))
      exact mem_blocks_of_mem env now eB _ (by simp) _ (claim_mem_block env now eB)
    · rw [ht, hb, hblockA]
      apply precedes_append_left _ _ _ _ hq1
      simp only [List.cons_append]
      simp [precedes, hqA, is_claim_of, Nat.ne_of_lt hAB]
    · rw [ht, hb, hblockA]
      apply precedes_append_left _ _ _ _ hq1
      simp only [List.cons_append]
      apply precedes_cons_of_not _ _ _ _ hqA rfl
      apply precedes_cons_of_not _ _ _ _ rfl rfl
      simp [precedes, is_meta_write, is_claim_of]
  · exact Option.noConfusion hfresh

/-- C1 witness: two successful jobs A then B on one fresh conversation
stream; B is claimed, A is claimed before B, and the Completion Record of A
is written before the claim of B. -/
theorem c1_witness :
    (process_user_stream envOk "t" 3 twoJobStream).2.any (is_claim_of 2) = true ∧
    precedes (is_claim_of 1) (is_claim_of 2)
      (process_user_stream envOk "t" 3 twoJobStream).2 = true ∧
    precedes (is_meta_write "A") (is_claim_of 2)
      (process_user_stream envOk "t" 3 twoJobStream).2 = true :=
  c1_fifo_completion_before_next_claim envOk "t" twoJobStream
    [] [] [] ⟨1, sampleJob "A"⟩ ⟨2, sampleJob "B"⟩ 3
    rfl rfl (by decide) (by decide) (by decide) (by decide)

/-! ## C4: acknowledgment policy -/

/-- C4 counterexample: a single claimed entry whose Job Executor raises is
NOT acknowledged (contrary to the acknowledge-anyway claim): the trace
contains its claim but no acknowledge event, and the entry remains in the
pending list after the run. -/
theorem c4_counterexample :
    (process_user_stream envRaiseA "t" 2 oneJobStream).2.any (is_claim_of 1) = true ∧
    (process_user_stream envRaiseA "t" 2 oneJobStream).2.any (is_ack_of 1) = false ∧
    pending_of (process_user_stream envRaiseA "t" 2 oneJobStream).1 = [1] := by
  exact ⟨rfl, rfl, rfl⟩

/-- C4 amended: the runner acknowledges a claimed entry exactly when the Job
Executor call returns (success or a returned document failure); when the
call raises, the entry is never acknowledged and its id remains in the
pending list, but the conversation log is still not blocked: every later
entry is still claimed, because reads deliver only entries newer than the
last delivered one. -/
theorem c4_ack_only_on_normal_return (env : JobEnv) (now : String) (s : StreamState)
    (l1 l2 : List StreamEntry) (eF : StreamEntry) (fuel : Nat)
    (hfresh : s.group = none)
    (hsplit : s.entries = l1 ++ eF :: l2)
    (hsorted : ids_increasing s.entries = true)
    (hpos : ∀ e ∈ s.entries, 0 < e.id)
    (hfuel : s.entries.length < fuel) :
    (raisedB (process_single_message env now eF.data).result = false →
      (process_user_stream env now fuel s).2.any (is_ack_of eF.id) = true) ∧
    (raisedB (process_single_message env now eF.data).result = true →
      (process_user_stream env now fuel s).2.any (is_ack_of eF.id) = false ∧
      eF.id ∈ pending_of (process_user_stream env now fuel s).1 ∧
      ∀ e2 ∈ l2, (process_user_stream env now fuel s).2.any (is_claim_of e2.id) = true) := by
  obtain ⟨entries, nid, gr⟩ := s
  rcases gr with _ | g
  · simp only [] at hsplit hsorted hpos hfuel
    subst hsplit
    have hrun := process_user_stream_run0 env now (l1 ++ eF :: l2) fuel nid
      hpos hsorted hfuel
    have ht : (process_user_stream env now fuel ⟨l1 ++ eF :: l2, nid, none⟩).2 =
        blocks_of env now (l1 ++ eF :: l2) := by
      rw [hrun]
    have hp : pending_of (process_user_stream env now fuel
        ⟨l1 ++ eF :: l2, nid, none⟩).1 = raised_ids env now (l1 ++ eF :: l2) := by
      rw [hrun]
      rfl
    have hsp := ids_increasing_split l1 l2 eF hsorted
    have hb : blocks_of env now (l1 ++ eF :: l2) =
        blocks_of env now l1 ++ (exec_block env now eF ++ blocks_of env now l2) := by
      rw [blocks_of_append]
      simp [blocks_of]
    constructor
    · intro hok
      rw [ht]
      apply List.any_eq_true.mpr
      refine ⟨Event.ack eF.id, ?_, by simp [is_ack_of]⟩
      rw [hb]
      refine List.mem_append.mpr (Or.inr (List.mem_append.mpr (Or.inl ?_)))
      exact ack_mem_block env now eF hok
    · intro hraise
      refine ⟨?_, ?_, ?_⟩
      · rw [ht]
        apply any_false_of_all
        intro x hx
        obtain ⟨e1, he1, hin⟩ := blocks_of_mem env now _ x hx
        rcases List.mem_append.mp he1 with h1 | h12
        · exact is_ack_false_in_block_ne env now e1 eF.id
            (Nat.ne_of_lt (hsp.1 e1 h1)) x hin
        · rcases List.mem_cons.mp h12 with rfl | h2
          · exact is_ack_false_in_raised_block env now e1 e1.id hraise x hin
          · exact is_ack_false_in_block_ne env now e1 eF.id
              (Nat.ne_of_gt (hsp.2 e1 h2)) x hin
      · rw [hp]
        exact mem_raised_ids env now eF _ (by simp) hraise
      · intro e2 he2
        rw [ht]
        apply List.any_eq_true.mpr
        refine ⟨Event.claim e2.id e2.data.job_id, ?_, by simp [is_claim_of]⟩
        rw [hb]
        refine List.mem_append.mpr (Or.inr (List.mem_append.mpr (Or.inr ?_)))
        exact mem_blocks_of_mem env now e2 _ (by simp [he2]) _ (claim_mem_block env now e2)
  · exact Option.noConfusion hfresh

/-- C4 witness: job A raises, job B follows it on the same conversation;
A is claimed but never acknowledged, stays pending, and B is still
claimed. -/
theorem c4_witness :
    (process_user_stream envRaiseA "t" 3 twoJobStream).2.any (is_ack_of 1) = false ∧
    1 ∈ pending_of (process_user_stream envRaiseA "t" 3 twoJobStream).1 ∧
    (process_user_stream envRaiseA "t" 3 twoJobStream).2.any (is_claim_of 2) = true := by
  have h := c4_ack_only_on_normal_return envRaiseA "t" twoJobStream
    [] [⟨2, sampleJob "B"⟩] ⟨1, sampleJob "A"⟩ 3
    rfl rfl (by decide) (by decide) (by decide)
  have h2 := h.2 (by decide)
  exact ⟨h2.1, h2.2.1, h2.2.2 ⟨2, sampleJob "B"⟩ (by decide)⟩

end AiApi
